import Mathlib

/-!
# metadata-checker: the browser-side controller `static/script.js`

A shallow embedding of the metadata rendering and field validation code of
`static/script.js`, and theorems about it.

JavaScript strings are sequences of UTF-16 code units; they are modelled as
lists of natural numbers (`JSString`).  Host functions whose definition is a
Unicode table (`toUpperCase`, `toLowerCase`) are parameters, gathered in `Host`.
-/

namespace MetadataChecker

set_option maxRecDepth 100000

/-! ## Strings -/

/-- A JavaScript string: its UTF-16 code units, in order. -/
abbrev JSString := List Nat

/-- The code units of a string literal (for text in the Basic Multilingual Plane). -/
def lit (s : String) : JSString := s.toList.map Char.toNat

/-- ECMAScript `WhiteSpace` and `LineTerminator` code units: the set stripped by
`String.prototype.trim` and matched by the pattern `\s`. -/
def isWhiteSpace (c : Nat) : Bool :=
  c == 9 || c == 10 || c == 11 || c == 12 || c == 13 || c == 32 || c == 160 ||
  c == 5760 || (8192 ≤ c && c ≤ 8202) || c == 8232 || c == 8233 || c == 8239 ||
  c == 8287 || c == 12288 || c == 65279

/-- ECMAScript `LineTerminator` code units: what the pattern `.` does not match. -/
def isLineTerminator (c : Nat) : Bool :=
  c == 10 || c == 13 || c == 8232 || c == 8233

/-- The class `[A-Z]`. -/
def isUpperAZ (c : Nat) : Bool := 65 ≤ c && c ≤ 90

/-- The class `[a-zA-Z0-9]`. -/
def isAlnum (c : Nat) : Bool :=
  (97 ≤ c && c ≤ 122) || (65 ≤ c && c ≤ 90) || (48 ≤ c && c ≤ 57)

/-- The function `String.prototype.trim`: white space is removed from both ends. -/
def trim (s : JSString) : JSString :=
  ((s.dropWhile isWhiteSpace).reverse.dropWhile isWhiteSpace).reverse

/-- The call `key.replace(/\s/g, '')`: the scan replaces every match of `\s` by
the empty string and copies every other code unit. -/
def replaceWhiteSpace : JSString → JSString
  | [] => []
  | c :: cs => if isWhiteSpace c then replaceWhiteSpace cs else c :: replaceWhiteSpace cs

/-- Greedy match of `[a-zA-Z0-9]*` at the front of the input: what is left of
the input after the longest run. -/
def skipAlnum : JSString → JSString
  | [] => []
  | c :: cs => if isAlnum c then skipAlnum cs else c :: cs

/-- The test `/^[a-zA-Z0-9]+$/.test(key)`: one class member at position 0, then
the greedy run, then the end of input.  (Backing off the greedy run cannot help:
a shorter run stops before a class member, where `$` fails too.) -/
def testAlnumPattern : JSString → Bool
  | [] => false
  | c :: cs => isAlnum c && (skipAlnum cs).isEmpty

/-! ## Field entry validation: the prefix of `saveNewMetadata` -/

/-- The two validation failures of `saveNewMetadata`: the toast
"Please fill in all fields" and the toast "Invalid field name. Use only letters
and numbers.". -/
inductive ErrorKind where
  | EmptyField
  | InvalidKeyCharset
  deriving DecidableEq, Repr

/-- The key and value that `saveNewMetadata` goes on to submit. -/
structure FieldEntry where
  key : JSString
  value : JSString
  deriving DecidableEq, Repr

deriving instance DecidableEq for Except

/-- The validation prefix of `saveNewMetadata` (lines 234-257): `isCustom` is
`fieldType === "custom"`, `rawKey`, `selectedPreset` and `rawValue` are the
values of the three form controls. -/
def validate (rawKey rawValue : JSString) (isCustom : Bool) (selectedPreset : JSString) :
    Except ErrorKind FieldEntry :=
  let key := if isCustom then trim rawKey else trim selectedPreset
  let value := trim rawValue
  if key.isEmpty || value.isEmpty then
    .error .EmptyField
  else
    let key := replaceWhiteSpace key
    if !testAlnumPattern key then
      .error .InvalidKeyCharset
    else
      .ok ⟨key, value⟩

/-- The reference pipeline of the specification for the validator, in its words:
select, trim, fail on an empty field, strip white space from the key, fail unless
the key consists solely of one or more characters of `[A-Za-z0-9]`. -/
def validateSpec (rawKey rawValue : JSString) (isCustom : Bool) (selectedPreset : JSString) :
    Except ErrorKind FieldEntry :=
  let k := trim (if isCustom then rawKey else selectedPreset)
  let v := trim rawValue
  let stripped := k.filter (fun c => !isWhiteSpace c)
  if k = [] ∨ v = [] then .error .EmptyField
  else if ¬ (stripped ≠ [] ∧ ∀ c ∈ stripped, isAlnum c = true) then .error .InvalidKeyCharset
  else .ok ⟨stripped, v⟩


/-! ## Values and host functions -/

/-- A JavaScript value as `JSON.parse` builds it (and `undefined`).  A number is
given by its canonical text, the string `String(n)`; an object is given by its
own members in the order of `Object.entries`. -/
inductive JSValue where
  | null
  | undefined
  | bool (b : Bool)
  | num (text : JSString)
  | str (s : JSString)
  | arr (items : List JSValue)
  | obj (entries : List (JSString × JSValue))

/-- The case conversions of the host, whose definition is the Unicode case
mapping table: `String.prototype.toUpperCase` and `String.prototype.toLowerCase`. -/
structure Host where
  toUpperCase : JSString → JSString
  toLowerCase : JSString → JSString

/-- A host whose case conversions are those of ECMAScript on ASCII text: the
letters `a-z` and `A-Z` are exchanged, every other code unit is kept.  It is used
to evaluate the code on ASCII examples. -/
def asciiHost : Host where
  toUpperCase := List.map (fun c => if 97 ≤ c ∧ c ≤ 122 then c - 32 else c)
  toLowerCase := List.map (fun c => if 65 ≤ c ∧ c ≤ 90 then c + 32 else c)

/-- JavaScript truthiness (`ToBoolean`). -/
def truthy : JSValue → Bool
  | .null => false
  | .undefined => false
  | .bool b => b
  | .num text => !(text == lit "0" || text == lit "NaN")
  | .str s => !s.isEmpty
  | .arr _ => true
  | .obj _ => true

/-- The test `typeof v === 'object'`. -/
def typeofObject : JSValue → Bool
  | .null => true
  | .arr _ => true
  | .obj _ => true
  | _ => false

/-- The text of a boolean. -/
def boolToString (b : Bool) : JSString := if b then lit "true" else lit "false"

/-- The decimal text of an array index. -/
def indexKey (i : Nat) : JSString := (Nat.toDigits 10 i).map Char.toNat

/-- Array members from index `i` on, as `Object.entries` lists them. -/
def indexEntries : List JSValue → Nat → List (JSString × JSValue)
  | [], _ => []
  | x :: xs, i => (indexKey i, x) :: indexEntries xs (i + 1)

/-- The list `Object.entries(v)` of an object or array. -/
def objectEntries : JSValue → List (JSString × JSValue)
  | .obj entries => entries
  | .arr items => indexEntries items 0
  | _ => []

/-- The property read `toolData.error`: the own member named `error` of an
object, `undefined` when there is none (arrays have none). -/
def getError : JSValue → JSValue
  | .obj entries =>
    match entries.find? (fun e => e.1 == lit "error") with
    | some e => e.2
    | none => .undefined
  | _ => .undefined

mutual
/-- The conversion `ToString`, which the `textContent` setter applies to a value
that is not a string; `none` stands for the `TypeError` it throws on an object
whose own member `toString` hides `Object.prototype.toString` (a member parsed
from JSON is never callable). -/
def jsToString : JSValue → Option JSString
  | .null => some (lit "null")
  | .undefined => some (lit "undefined")
  | .bool b => some (boolToString b)
  | .num text => some text
  | .str s => some s
  | .arr items => joinLoop items true []
  | .obj entries =>
    if entries.any (fun e => e.1 == lit "toString") then none
    else some (lit "[object Object]")
/-- The loop of `Array.prototype.join` with the separator `,`: `first` tells
whether the member is at index 0, `r` is the text so far. -/
def joinLoop : List JSValue → Bool → JSString → Option JSString
  | [], _, r => some r
  | x :: xs, first, r =>
    match x with
    | .null => joinLoop xs false (if first then r else r ++ [44])
    | .undefined => joinLoop xs false (if first then r else r ++ [44])
    | v =>
      match jsToString v with
      | none => none
      | some next => joinLoop xs false ((if first then r else r ++ [44]) ++ next)
end

/-! ## The key formatter: the `displayKey` expression -/

/-- The call `key.replace(/([A-Z])/g, ' $1')`: the scan replaces every match of
`[A-Z]` by a space followed by the matched letter and copies every other code
unit. -/
def spaceBeforeCapitals : JSString → JSString
  | [] => []
  | c :: cs =>
    if isUpperAZ c then 32 :: c :: spaceBeforeCapitals cs else c :: spaceBeforeCapitals cs

/-- The call `.replace(/^./, str => str.toUpperCase())`: the pattern matches the
first code unit unless the string is empty or begins with a line terminator, and
the match is replaced by its upper case. -/
def upperFirst (H : Host) : JSString → JSString
  | [] => []
  | c :: cs => if isLineTerminator c then c :: cs else H.toUpperCase [c] ++ cs

/-- The expression
`key.replace(/([A-Z])/g, ' $1').replace(/^./, str => str.toUpperCase())`
of `displayMetadataObject`. -/
def displayKey (H : Host) (key : JSString) : JSString :=
  upperFirst H (spaceBeforeCapitals key)

/-! ## Escaping -/

/-- The escape of one code unit of a text node in the HTML fragment serialization
(`innerHTML`): `&`, the no-break space, `<` and `>` are replaced. -/
def escapeCodeUnit (c : Nat) : JSString :=
  if c = 38 then lit "&amp;"
  else if c = 160 then lit "&nbsp;"
  else if c = 60 then lit "&lt;"
  else if c = 62 then lit "&gt;"
  else [c]

/-- The function `escapeHtml` on a string: the text becomes the only child of a
fresh `div` and the `innerHTML` of the `div` is read back. -/
def escapeHtml : JSString → JSString
  | [] => []
  | c :: cs => escapeCodeUnit c ++ escapeHtml cs

/-! ## `JSON.stringify(value, null, 2)` -/

/-- A lower-case hexadecimal digit. -/
def hexDigit (n : Nat) : Nat := if n < 10 then 48 + n else 87 + n

/-- The escape `\uXXXX` of a code unit. -/
def unicodeEscape (c : Nat) : JSString :=
  [92, 117, hexDigit (c / 4096 % 16), hexDigit (c / 256 % 16), hexDigit (c / 16 % 16),
    hexDigit (c % 16)]

/-- The body of `QuoteJSONString`: the short escapes, `\uXXXX` for the other
control characters and for unpaired surrogates, every other code point as it is. -/
def quoteBody : JSString → JSString
  | [] => []
  | c :: cs =>
    if c = 8 then 92 :: 98 :: quoteBody cs
    else if c = 9 then 92 :: 116 :: quoteBody cs
    else if c = 10 then 92 :: 110 :: quoteBody cs
    else if c = 12 then 92 :: 102 :: quoteBody cs
    else if c = 13 then 92 :: 114 :: quoteBody cs
    else if c = 34 then 92 :: 34 :: quoteBody cs
    else if c = 92 then 92 :: 92 :: quoteBody cs
    else if c < 32 then unicodeEscape c ++ quoteBody cs
    else if 55296 ≤ c ∧ c ≤ 56319 then
      match cs with
      | d :: ds =>
        if 56320 ≤ d ∧ d ≤ 57343 then c :: d :: quoteBody ds
        else unicodeEscape c ++ quoteBody (d :: ds)
      | [] => unicodeEscape c
    else if 56320 ≤ c ∧ c ≤ 57343 then unicodeEscape c ++ quoteBody cs
    else c :: quoteBody cs

/-- The operation `QuoteJSONString`. -/
def quoteJSONString (s : JSString) : JSString := 34 :: quoteBody s ++ [34]

/-- The gap of `JSON.stringify(value, null, 2)`: two spaces. -/
def gap : JSString := [32, 32]

/-- The text of the parts of an array or object between `open` and `close`, at
the indentation `stepback`, with the gap of two spaces. -/
def wrapParts (opening closing : Nat) (parts : List JSString) (stepback : JSString) : JSString :=
  match parts with
  | [] => [opening, closing]
  | p :: ps =>
    [opening, 10] ++ (stepback ++ gap) ++ p
      ++ ps.flatMap (fun q => [44, 10] ++ (stepback ++ gap) ++ q)
      ++ [10] ++ stepback ++ [closing]

mutual
/-- The operation `SerializeJSONProperty` at the indentation `indent`; `none` is
`undefined`. -/
def serializeJSONProperty : JSValue → JSString → Option JSString
  | .null, _ => some (lit "null")
  | .undefined, _ => none
  | .bool b, _ => some (boolToString b)
  | .num text, _ =>
    some (if text == lit "NaN" || text == lit "Infinity" || text == lit "-Infinity"
      then lit "null" else text)
  | .str s, _ => some (quoteJSONString s)
  | .arr items, indent => some (wrapParts 91 93 (serializeElements items (indent ++ gap)) indent)
  | .obj entries, indent =>
    some (wrapParts 123 125 (serializeMembers entries (indent ++ gap)) indent)
/-- The texts of the members of an array: `undefined` is written `null`. -/
def serializeElements : List JSValue → JSString → List JSString
  | [], _ => []
  | x :: xs, indent =>
    (match serializeJSONProperty x indent with
      | none => lit "null"
      | some t => t) :: serializeElements xs indent
/-- The texts of the members of an object: a member whose value is `undefined`
is left out. -/
def serializeMembers : List (JSString × JSValue) → JSString → List JSString
  | [], _ => []
  | (k, v) :: es, indent =>
    match serializeJSONProperty v indent with
    | none => serializeMembers es indent
    | some t => (quoteJSONString k ++ [58, 32] ++ t) :: serializeMembers es indent
end

/-- The call `JSON.stringify(value, null, 2)` on an array `value`. -/
def stringifyArray (items : List JSValue) : JSString :=
  wrapParts 91 93 (serializeElements items gap) []

/-! ## `displayMetadataObject` -/

/-- The markup of one row, the template literal of both row branches of
`displayMetadataObject`: `key` and `value` are the texts handed to `escapeHtml`. -/
def itemHtml (key value : JSString) : JSString :=
  lit "\n                <div class=\"metadata-item\">\n                    <div class=\"metadata-key\">" ++ escapeHtml key
    ++ lit "</div>\n                    <div class=\"metadata-value\">" ++ escapeHtml value
    ++ lit "</div>\n                </div>\n            "

mutual
/-- The callback of the loop of `displayMetadataObject` on the entry `[key, value]`,
as the text it appends to `html`.  A nested object gives the markup of
`displayMetadataObject(value, prefix_key)`; an array gives a row with the key as
it is and the text of `JSON.stringify`; `null` and `undefined` give nothing; any
other value gives a row with the formatted key and `String(value)`. -/
def entryHtml (H : Host) : JSString → JSValue → JSString → JSString
  | key, .obj o, pfx => forEachEntry H o (pfx ++ 95 :: key) []
  | key, .arr a, _ => itemHtml key (stringifyArray a)
  | _, .null, _ => []
  | _, .undefined, _ => []
  | key, .bool b, _ => itemHtml (displayKey H key) (boolToString b)
  | key, .num text, _ => itemHtml (displayKey H key) text
  | key, .str s, _ => itemHtml (displayKey H key) s
/-- The loop `Object.entries(obj).forEach(...)` of `displayMetadataObject`, with
the variable `html` as accumulator. -/
def forEachEntry (H : Host) : List (JSString × JSValue) → JSString → JSString → JSString
  | [], _, html => html
  | (key, value) :: rest, pfx, html =>
    forEachEntry H rest pfx (html ++ entryHtml H key value pfx)
end

/-- The function `displayMetadataObject(obj, prefix)`: the markup of the rows of
`obj`, given by its entries. -/
def displayMetadataObject (H : Host) (obj : List (JSString × JSValue)) (pfx : JSString) :
    JSString :=
  forEachEntry H obj pfx []

/-! ## `displayAllMetadata` -/

/-- The markup of the section of a tool whose result carries an error: `heading`
and `message` are the texts handed to `escapeHtml`. -/
def errorSectionHtml (heading message : JSString) : JSString :=
  lit "<div class=\"metadata-tool-section\">\n                            <h3>" ++ escapeHtml heading
    ++ lit "</h3>\n                            <div class=\"metadata-item\">\n                                <div class=\"metadata-value error\">" ++ escapeHtml message
    ++ lit "</div>\n                            </div>\n                         </div>"

/-- The markup of the section of a tool whose result is a node: `heading` is the
text handed to `escapeHtml`, `body` the markup of the rows. -/
def nodeSectionHtml (heading body : JSString) : JSString :=
  lit "<div class=\"metadata-tool-section\">\n                            <h3>" ++ escapeHtml heading
    ++ lit "</h3>\n                            " ++ body
    ++ lit "\n                         </div>"

/-- The loop `Object.entries(metadata).forEach(...)` of `displayAllMetadata`, with
the variable `html` as accumulator; `none` stands for a `TypeError` thrown while
the error message is converted to a string. -/
def forEachTool (H : Host) : List (JSString × JSValue) → JSString → Option JSString
  | [], html => some html
  | (toolName, toolData) :: rest, html =>
    if truthy toolData && typeofObject toolData then
      if truthy (getError toolData) then
        match jsToString (getError toolData) with
        | none => none
        | some message => forEachTool H rest (html ++ errorSectionHtml (H.toUpperCase toolName) message)
      else if 0 < (objectEntries toolData).length then
        forEachTool H rest
          (html ++ nodeSectionHtml (H.toUpperCase toolName)
            (displayMetadataObject H (objectEntries toolData) toolName))
      else forEachTool H rest html
    else forEachTool H rest html

/-- The markup shown when no tool gave a section. -/
def noMetadataHtml : JSString :=
  lit "<div class=\"metadata-item\"><div class=\"metadata-value\">No metadata found</div></div>"

/-- The function `displayAllMetadata(metadata)`, `metadata` given by its entries:
the string assigned to `metadataList.innerHTML`. -/
def displayAllMetadata (H : Host) (metadata : List (JSString × JSValue)) : Option JSString :=
  (forEachTool H metadata []).map (fun html => if html.isEmpty then noMetadataHtml else html)

/-! ## The rendered rows

The markup above is a list of sections, each with a heading and rows; the
definitions below follow the same loops and collect the rows instead of their
markup.  `forEachEntry_eq_rows` and `forEachTool_eq_sections` relate the two. -/

/-- A row of `displayMetadataObject`: the text of its key cell and of its value
cell (the strings handed to `escapeHtml`). -/
structure Row where
  key : JSString
  value : JSString
  deriving DecidableEq, Repr

mutual
/-- The rows that the callback of the loop of `displayMetadataObject` adds for
the entry `[key, value]`. -/
def entryRows (H : Host) : JSString → JSValue → JSString → List Row
  | key, .obj o, pfx => rowsLoop H o (pfx ++ 95 :: key) []
  | key, .arr a, _ => [⟨key, stringifyArray a⟩]
  | _, .null, _ => []
  | _, .undefined, _ => []
  | key, .bool b, _ => [⟨displayKey H key, boolToString b⟩]
  | key, .num text, _ => [⟨displayKey H key, text⟩]
  | key, .str s, _ => [⟨displayKey H key, s⟩]
/-- The loop of `displayMetadataObject`, collecting the rows in `rows`. -/
def rowsLoop (H : Host) : List (JSString × JSValue) → JSString → List Row → List Row
  | [], _, rows => rows
  | (key, value) :: rest, pfx, rows => rowsLoop H rest pfx (rows ++ entryRows H key value pfx)
end

/-- The rows of `displayMetadataObject(obj, prefix)`, in the order of their markup. -/
def metadataRows (H : Host) (obj : List (JSString × JSValue)) (pfx : JSString) : List Row :=
  rowsLoop H obj pfx []

/-- A section of `displayAllMetadata`: the section of an error result, with its
heading and the error message, or the section of a node, with its heading and
rows. -/
inductive ToolSection where
  | error (heading message : JSString)
  | node (heading : JSString) (rows : List Row)
  deriving DecidableEq, Repr

/-- The markup of a section. -/
def ToolSection.html : ToolSection → JSString
  | .error heading message => errorSectionHtml heading message
  | .node heading rows => nodeSectionHtml heading (rows.flatMap (fun r => itemHtml r.key r.value))

/-- The loop of `displayAllMetadata`, collecting the sections in `sections`;
`none` stands for the `TypeError` of `forEachTool`. -/
def sectionsLoop (H : Host) :
    List (JSString × JSValue) → List ToolSection → Option (List ToolSection)
  | [], sections => some sections
  | (toolName, toolData) :: rest, sections =>
    if truthy toolData && typeofObject toolData then
      if truthy (getError toolData) then
        match jsToString (getError toolData) with
        | none => none
        | some message =>
          sectionsLoop H rest (sections ++ [.error (H.toUpperCase toolName) message])
      else if 0 < (objectEntries toolData).length then
        sectionsLoop H rest
          (sections ++ [.node (H.toUpperCase toolName)
            (metadataRows H (objectEntries toolData) toolName)])
      else sectionsLoop H rest sections
    else sectionsLoop H rest sections

/-- The sections of `displayAllMetadata(metadata)`, in the order of their markup. -/
def toolSections (H : Host) (metadata : List (JSString × JSValue)) :
    Option (List ToolSection) :=
  sectionsLoop H metadata []

/-! ## `filterMetadata` -/

/-- An element of class `metadata-item` as `filterMetadata` reads it: the text of
its descendant of class `metadata-key`, `none` when it has no such descendant,
the text of its descendant of class `metadata-value`, and whether that one also
has the class `error`. -/
structure MetadataItem where
  key : Option JSString
  value : JSString
  error : Bool
  deriving DecidableEq, Repr

/-- The `metadata-item` elements of a section: the item of an error section has
a value cell of class `error` and no key cell, a row of a node has both cells. -/
def ToolSection.items : ToolSection → List MetadataItem
  | .error _ message => [⟨none, message, true⟩]
  | .node _ rows => rows.map (fun r => ⟨some r.key, r.value, false⟩)

/-- The `metadata-item` elements of the list after `displayAllMetadata`: those of
the sections, or the one item of the markup `noMetadataHtml` when there is no
section. -/
def renderedItems (sections : List ToolSection) : List MetadataItem :=
  if sections.isEmpty then [⟨none, lit "No metadata found", false⟩]
  else sections.flatMap ToolSection.items

/-- The method `String.prototype.includes`: the search string occurs at some
position of the string. -/
def includes : JSString → JSString → Bool
  | [], search => search.isPrefixOf []
  | c :: cs, search => search.isPrefixOf (c :: cs) || includes cs search

/-- The loop `items.forEach(...)` of `filterMetadata`: `shown` collects, item by
item, whether `style.display` is set to `block` (`true`) or to `none` (`false`).
The result `none` stands for the `TypeError` of reading `textContent` of `null`,
when `item.querySelector(".metadata-key")` finds no element. -/
def filterLoop (H : Host) (searchTerm : JSString) :
    List MetadataItem → List Bool → Option (List Bool)
  | [], shown => some shown
  | item :: rest, shown =>
    match item.key with
    | none => none
    | some keyText =>
      let key := H.toLowerCase keyText
      let value := H.toLowerCase item.value
      filterLoop H searchTerm rest
        (shown ++ [includes key searchTerm || includes value searchTerm])

/-- The function `filterMetadata`: `searchValue` is the value of the search box,
`items` are the elements of class `metadata-item` in document order. -/
def filterMetadata (H : Host) (searchValue : JSString) (items : List MetadataItem) :
    Option (List Bool) :=
  filterLoop H (H.toLowerCase searchValue) items []

/-! ## Reference definitions, in the words of the specification -/

/-- The key formatter as the specification words it: one space before each
maximal run of upper-case letters that does not start at position 0 (`prev` tells
whether the previous code unit is an upper-case letter, `start` whether the
position is 0). -/
def spaceBeforeRuns : JSString → Bool → Bool → JSString
  | [], _, _ => []
  | c :: cs, prev, start =>
    if isUpperAZ c then
      if prev || start then c :: spaceBeforeRuns cs true false
      else 32 :: c :: spaceBeforeRuns cs true false
    else c :: spaceBeforeRuns cs false false

/-- The key formatter of the specification: `spaceBeforeRuns`, then the first
character in upper case. -/
def formatSpec (H : Host) (key : JSString) : JSString :=
  upperFirst H (spaceBeforeRuns key false true)

mutual
/-- The leaves under the entry `[key, value]`: a nested node gives its own leaves,
`null` and `undefined` give none, every other value (a scalar or an array) is one
leaf. -/
def entryLeaves : JSString → JSValue → List (JSString × JSValue)
  | _, .obj o => leaves o
  | _, .null => []
  | _, .undefined => []
  | key, .arr a => [(key, .arr a)]
  | key, .bool b => [(key, .bool b)]
  | key, .num text => [(key, .num text)]
  | key, .str s => [(key, .str s)]
/-- The leaves of a node in a depth-first walk in key order, each with its key. -/
def leaves : List (JSString × JSValue) → List (JSString × JSValue)
  | [] => []
  | (key, value) :: rest => entryLeaves key value ++ leaves rest
end

/-- The row of a leaf: an array gives the key as it is and the text of
`JSON.stringify`, a scalar gives the formatted key and its text. -/
def leafRow (H : Host) (leaf : JSString × JSValue) : Row :=
  match leaf.2 with
  | .arr a => ⟨leaf.1, stringifyArray a⟩
  | .bool b => ⟨displayKey H leaf.1, boolToString b⟩
  | .num text => ⟨displayKey H leaf.1, text⟩
  | .str s => ⟨displayKey H leaf.1, s⟩
  | _ => ⟨leaf.1, []⟩

/-- The number of tags in the markup of a section: the eight tags of an error
section, or the four tags of a node section and six for each of its rows. -/
def ToolSection.tagCount : ToolSection → Nat
  | .error _ _ => 8
  | .node _ rows => 4 + 6 * rows.length

/-- The text after an `&` begins the name of one of the four character
references that the serialization writes. -/
def beginsReference (post : JSString) : Prop :=
  lit "amp;" <+: post ∨ lit "nbsp;" <+: post ∨ lit "lt;" <+: post ∨ lit "gt;" <+: post
/-! ## Lemmas on the string scans -/

theorem replaceWhiteSpace_eq_filter (s : JSString) :
    replaceWhiteSpace s = s.filter (fun c => !isWhiteSpace c) := by
  induction s with
  | nil => rfl
  | cons c cs ih =>
    by_cases h : isWhiteSpace c = true
    · simp [replaceWhiteSpace, h, ih]
    · simp [replaceWhiteSpace, h, ih]

theorem skipAlnum_isEmpty (s : JSString) :
    (skipAlnum s).isEmpty = true ↔ ∀ c ∈ s, isAlnum c = true := by
  induction s with
  | nil => simp [skipAlnum]
  | cons c cs ih =>
    by_cases h : isAlnum c = true
    · simp [skipAlnum, h, ih]
    · simp [skipAlnum, h]

theorem testAlnumPattern_iff (s : JSString) :
    testAlnumPattern s = true ↔ (s ≠ [] ∧ ∀ c ∈ s, isAlnum c = true) := by
  cases s with
  | nil => simp [testAlnumPattern]
  | cons c cs =>
    simp only [testAlnumPattern, Bool.and_eq_true, skipAlnum_isEmpty]
    simp

theorem filter_dropWhile_not (p : Nat → Bool) (s : JSString) :
    (s.dropWhile p).filter (fun c => !p c) = s.filter (fun c => !p c) := by
  induction s with
  | nil => rfl
  | cons c cs ih =>
    by_cases h : p c = true
    · simp [List.dropWhile, h, ih]
    · simp [List.dropWhile, h]

theorem filter_trim (s : JSString) :
    (trim s).filter (fun c => !isWhiteSpace c) = s.filter (fun c => !isWhiteSpace c) := by
  unfold trim
  rw [List.filter_reverse, filter_dropWhile_not, List.filter_reverse, List.reverse_reverse,
    filter_dropWhile_not]

theorem validate_eq_validateSpec (rawKey rawValue : JSString) (isCustom : Bool)
    (selectedPreset : JSString) :
    validate rawKey rawValue isCustom selectedPreset
      = validateSpec rawKey rawValue isCustom selectedPreset := by
  have hsel : (if isCustom then trim rawKey else trim selectedPreset)
      = trim (if isCustom then rawKey else selectedPreset) := by
    cases isCustom <;> rfl
  unfold validate validateSpec
  simp only [hsel, replaceWhiteSpace_eq_filter]
  generalize trim (if isCustom then rawKey else selectedPreset) = k
  generalize trim rawValue = v
  by_cases hkv : k = [] ∨ v = []
  · have : (k.isEmpty || v.isEmpty) = true := by
      rcases hkv with h | h <;> simp [h]
    simp [this, hkv]
  · have : (k.isEmpty || v.isEmpty) = false := by
      push_neg at hkv
      cases k <;> cases v <;> simp_all
    rw [if_neg (by simp [this]), if_neg hkv]
    by_cases ht : testAlnumPattern (k.filter (fun c => !isWhiteSpace c)) = true
    · have h2 := (testAlnumPattern_iff _).1 ht
      rw [if_neg (by simp [ht]), if_neg (not_not.2 h2)]
    · have h2 : ¬ _ := fun h => ht ((testAlnumPattern_iff _).2 h)
      rw [if_pos (by simpa using ht), if_pos h2]

/-- C1: the validation prefix of `saveNewMetadata` equals the reference pipeline
(select, trim, `EmptyField` iff a trimmed field is empty, otherwise
`InvalidKeyCharset` iff the white-space-stripped key is not one or more characters
of `[A-Za-z0-9]`, otherwise success with the stripped key and the trimmed value);
`validate("my key", "42", true, "")` succeeds with key `mykey` and value `42`, and
an empty key or an empty value gives `EmptyField`. -/
theorem validate_refines_reference_pipeline :
    (∀ (rawKey rawValue : JSString) (isCustom : Bool) (selectedPreset : JSString),
      validate rawKey rawValue isCustom selectedPreset
        = validateSpec rawKey rawValue isCustom selectedPreset)
    ∧ validate (lit "my key") (lit "42") true (lit "") = .ok ⟨lit "mykey", lit "42"⟩
    ∧ validate (lit "") (lit "x") true (lit "") = .error .EmptyField
    ∧ validate (lit "x") (lit "") true (lit "") = .error .EmptyField :=
  ⟨validate_eq_validateSpec, by decide, by decide, by decide⟩

/-- C2 as stated fails: the key `my-key` has a character outside `[A-Za-z0-9]`
after white space removal, yet with the empty value the validator returns
`EmptyField`, not `InvalidKeyCharset`. -/
theorem charset_law_fails_for_empty_value :
    (∃ c ∈ (lit "my-key").filter (fun c => !isWhiteSpace c), isAlnum c = false)
    ∧ validate (lit "my-key") (lit "") true (lit "") = .error .EmptyField
    ∧ validate (lit "my-key") (lit "") true (lit "") ≠ .error .InvalidKeyCharset := by
  refine ⟨⟨45, by decide, by decide⟩, by decide, by decide⟩

/-- C2, amended: for every key that, after all white space is removed, contains a
character outside `[A-Za-z0-9]`, and every value that is not empty after trimming,
the validator returns `InvalidKeyCharset`. -/
theorem validate_charset_law (s value preset : JSString)
    (hs : ∃ c ∈ s.filter (fun c => !isWhiteSpace c), isAlnum c = false)
    (hv : trim value ≠ []) :
    validate s value true preset = .error .InvalidKeyCharset := by
  rw [validate_eq_validateSpec]
  unfold validateSpec
  simp only [if_true, filter_trim]
  obtain ⟨c, hc, hal⟩ := hs
  have hk : trim s ≠ [] := by
    intro h
    have := filter_trim s
    rw [h] at this
    rw [← this] at hc
    simp at hc
  rw [if_neg (by simp [hk, hv]), if_pos]
  rintro ⟨_, hall⟩
  have := hall c hc
  simp [hal] at this

/-- Witness for C2: `validate("my-key", "42", true, "")` returns `InvalidKeyCharset`. -/
theorem validate_charset_law_witness :
    validate (lit "my-key") (lit "42") true (lit "") = .error .InvalidKeyCharset :=
  validate_charset_law (lit "my-key") (lit "42") (lit "")
    ⟨45, by decide, by decide⟩ (by decide)


/-! ## Lemmas on the rendering loops -/

theorem forEachEntry_acc (H : Host) (es : List (JSString × JSValue)) (pfx html : JSString) :
    forEachEntry H es pfx html = html ++ forEachEntry H es pfx [] := by
  induction es generalizing html with
  | nil => simp [forEachEntry]
  | cons e rest ih =>
    obtain ⟨key, value⟩ := e
    rw [forEachEntry, ih, forEachEntry, ih ([] ++ _)]
    simp

theorem rowsLoop_acc (H : Host) (es : List (JSString × JSValue)) (pfx : JSString)
    (rows : List Row) :
    rowsLoop H es pfx rows = rows ++ rowsLoop H es pfx [] := by
  induction es generalizing rows with
  | nil => simp [rowsLoop]
  | cons e rest ih =>
    obtain ⟨key, value⟩ := e
    rw [rowsLoop, ih, rowsLoop, ih ([] ++ _)]
    simp

mutual
theorem entryHtml_eq_rows (H : Host) :
    ∀ (key : JSString) (value : JSValue) (pfx : JSString),
      entryHtml H key value pfx
        = (entryRows H key value pfx).flatMap (fun r => itemHtml r.key r.value)
  | key, .obj o, pfx => by
    rw [entryHtml, entryRows, forEachEntry_eq_rows H o]
  | key, .arr a, _ => by simp [entryHtml, entryRows]
  | _, .null, _ => by simp [entryHtml, entryRows]
  | _, .undefined, _ => by simp [entryHtml, entryRows]
  | key, .bool b, _ => by simp [entryHtml, entryRows]
  | key, .num text, _ => by simp [entryHtml, entryRows]
  | key, .str s, _ => by simp [entryHtml, entryRows]
/-- The markup of `displayMetadataObject` is the markup of its rows, one after
the other. -/
theorem forEachEntry_eq_rows (H : Host) :
    ∀ (es : List (JSString × JSValue)) (pfx : JSString),
      forEachEntry H es pfx [] = (rowsLoop H es pfx []).flatMap (fun r => itemHtml r.key r.value)
  | [], _ => by simp [forEachEntry, rowsLoop]
  | (key, value) :: rest, pfx => by
    rw [forEachEntry, rowsLoop, forEachEntry_acc, rowsLoop_acc, List.flatMap_append,
      entryHtml_eq_rows H key value pfx, forEachEntry_eq_rows H rest pfx]
    simp
end

mutual
theorem entryRows_eq_leaves (H : Host) :
    ∀ (key : JSString) (value : JSValue) (pfx : JSString),
      entryRows H key value pfx = (entryLeaves key value).map (leafRow H)
  | key, .obj o, pfx => by
    rw [entryRows, entryLeaves, rowsLoop_eq_leaves H o]
  | key, .arr a, _ => by simp [entryRows, entryLeaves, leafRow]
  | _, .null, _ => by simp [entryRows, entryLeaves]
  | _, .undefined, _ => by simp [entryRows, entryLeaves]
  | key, .bool b, _ => by simp [entryRows, entryLeaves, leafRow]
  | key, .num text, _ => by simp [entryRows, entryLeaves, leafRow]
  | key, .str s, _ => by simp [entryRows, entryLeaves, leafRow]
/-- The rows of a node are the rows of its leaves, in the order of the walk. -/
theorem rowsLoop_eq_leaves (H : Host) :
    ∀ (es : List (JSString × JSValue)) (pfx : JSString),
      rowsLoop H es pfx [] = (leaves es).map (leafRow H)
  | [], _ => by simp [rowsLoop, leaves]
  | (key, value) :: rest, pfx => by
    rw [rowsLoop, rowsLoop_acc, leaves, List.map_append,
      entryRows_eq_leaves H key value pfx, rowsLoop_eq_leaves H rest pfx]
    simp
end

mutual
theorem entryLeaves_are_leaf_values :
    ∀ (key : JSString) (value : JSValue), ∀ l ∈ entryLeaves key value,
      l.2 ≠ .null ∧ l.2 ≠ .undefined ∧ ∀ o, l.2 ≠ .obj o
  | _, .obj o, l, h => by
    rw [entryLeaves] at h
    exact leaves_are_leaf_values o l h
  | _, .null, l, h => by simp [entryLeaves] at h
  | _, .undefined, l, h => by simp [entryLeaves] at h
  | key, .arr a, l, h => by
    simp only [entryLeaves, List.mem_singleton] at h
    subst h
    exact ⟨by simp, by simp, by simp⟩
  | key, .bool b, l, h => by
    simp only [entryLeaves, List.mem_singleton] at h
    subst h
    exact ⟨by simp, by simp, by simp⟩
  | key, .num text, l, h => by
    simp only [entryLeaves, List.mem_singleton] at h
    subst h
    exact ⟨by simp, by simp, by simp⟩
  | key, .str s, l, h => by
    simp only [entryLeaves, List.mem_singleton] at h
    subst h
    exact ⟨by simp, by simp, by simp⟩
theorem leaves_are_leaf_values :
    ∀ (es : List (JSString × JSValue)), ∀ l ∈ leaves es,
      l.2 ≠ .null ∧ l.2 ≠ .undefined ∧ ∀ o, l.2 ≠ .obj o
  | [], l, h => by simp [leaves] at h
  | (key, value) :: rest, l, h => by
    rw [leaves, List.mem_append] at h
    rcases h with h | h
    · exact entryLeaves_are_leaf_values key value l h
    · exact leaves_are_leaf_values rest l h
end

theorem sectionsLoop_acc (H : Host) (doc : List (JSString × JSValue))
    (secs : List ToolSection) :
    sectionsLoop H doc secs = (sectionsLoop H doc []).map (fun s => secs ++ s) := by
  induction doc generalizing secs with
  | nil => simp [sectionsLoop]
  | cons t rest ih =>
    obtain ⟨toolName, toolData⟩ := t
    simp only [sectionsLoop]
    split
    · split
      · split
        · rfl
        · rw [ih, ih ([] ++ _)]
          simp [Option.map_map, Function.comp_def]
      · split
        · rw [ih, ih ([] ++ _)]
          simp [Option.map_map, Function.comp_def]
        · exact ih secs
    · exact ih secs

theorem sectionsLoop_cons (H : Host) (t : JSString × JSValue)
    (rest : List (JSString × JSValue)) :
    sectionsLoop H (t :: rest) []
      = (sectionsLoop H [t] []).bind (fun a => (sectionsLoop H rest []).map (fun b => a ++ b)) := by
  obtain ⟨toolName, toolData⟩ := t
  simp only [sectionsLoop]
  split
  · split
    · split
      · rfl
      · rw [sectionsLoop_acc]
        simp
    · split
      · rw [sectionsLoop_acc]
        simp
      · simp
  · simp

theorem toolSections_append (H : Host) (a b : List (JSString × JSValue)) :
    toolSections H (a ++ b)
      = (toolSections H a).bind (fun x => (toolSections H b).map (fun y => x ++ y)) := by
  unfold toolSections
  induction a with
  | nil => simp [sectionsLoop]
  | cons t rest ih =>
    rw [List.cons_append, sectionsLoop_cons, ih, sectionsLoop_cons H t rest]
    cases sectionsLoop H [t] [] with
    | none => rfl
    | some x =>
      cases sectionsLoop H rest [] with
      | none => rfl
      | some y =>
        cases sectionsLoop H b [] with
        | none => rfl
        | some z => simp

theorem forEachTool_eq_sections (H : Host) (doc : List (JSString × JSValue)) (html : JSString) :
    forEachTool H doc html
      = (sectionsLoop H doc []).map (fun secs => html ++ secs.flatMap ToolSection.html) := by
  induction doc generalizing html with
  | nil => simp [forEachTool, sectionsLoop]
  | cons t rest ih =>
    obtain ⟨toolName, toolData⟩ := t
    simp only [forEachTool, sectionsLoop]
    split
    · split
      · split
        · rfl
        · rw [ih, sectionsLoop_acc H rest ([] ++ [ToolSection.error _ _])]
          simp [Option.map_map, Function.comp_def, ToolSection.html]
      · split
        · rw [ih, sectionsLoop_acc H rest ([] ++ [ToolSection.node _ _])]
          simp [Option.map_map, Function.comp_def, ToolSection.html, displayMetadataObject,
            metadataRows, forEachEntry_eq_rows]
        · exact ih html
    · exact ih html

theorem spaceBeforeCapitals_eq_flatMap (key : JSString) :
    spaceBeforeCapitals key = key.flatMap (fun c => if isUpperAZ c then [32, c] else [c]) := by
  induction key with
  | nil => rfl
  | cons c cs ih =>
    by_cases h : isUpperAZ c = true
    · simp [spaceBeforeCapitals, h, ih]
    · simp [spaceBeforeCapitals, h, ih]

theorem asciiHost_toUpperCase_single (c : Nat) :
    ∃ d ds, asciiHost.toUpperCase [c] = d :: ds ∧ isWhiteSpace d = isWhiteSpace c := by
  refine ⟨if 97 ≤ c ∧ c ≤ 122 then c - 32 else c, [], rfl, ?_⟩
  split
  · rename_i h
    have h1 : isWhiteSpace c = false := by
      simp only [isWhiteSpace, Bool.or_eq_false_iff, beq_eq_false_iff_ne, Bool.and_eq_false_iff,
        decide_eq_false_iff_not]
      omega
    have h2 : isWhiteSpace (c - 32) = false := by
      simp only [isWhiteSpace, Bool.or_eq_false_iff, beq_eq_false_iff_ne, Bool.and_eq_false_iff,
        decide_eq_false_iff_not]
      omega
    rw [h1, h2]
  · rfl

theorem isUpperAZ_not_whiteSpace (c : Nat) (h : isUpperAZ c = true) : isWhiteSpace c = false := by
  simp only [isUpperAZ, Bool.and_eq_true, decide_eq_true_eq] at h
  simp only [isWhiteSpace, Bool.or_eq_false_iff, beq_eq_false_iff_ne, Bool.and_eq_false_iff,
    decide_eq_false_iff_not]
  omega

theorem isLineTerminator_whiteSpace (c : Nat) (h : isLineTerminator c = true) :
    isWhiteSpace c = true := by
  simp only [isLineTerminator, Bool.or_eq_true, beq_iff_eq] at h
  rcases h with ((h | h) | h) | h <;> subst h <;> decide

/-- C3 as stated fails: the keys `Make` and `ISO` give the labels ` Make` and
` I S O`, which start with a space. -/
theorem displayKey_leading_space_for_capitalised_keys :
    displayKey asciiHost (lit "Make") = lit " Make"
    ∧ displayKey asciiHost (lit "ISO") = lit " I S O"
    ∧ (∃ d ∈ (displayKey asciiHost (lit "Make")).head?, isWhiteSpace d = true)
    ∧ (∃ d ∈ (displayKey asciiHost (lit "ISO")).head?, isWhiteSpace d = true) := by
  refine ⟨by decide, by decide, ⟨32, by decide, by decide⟩, ⟨32, by decide, by decide⟩⟩

/-- C3, amended: when the upper case of a single code unit is a non-empty string
that begins with white space exactly if the code unit is white space (as for
`toUpperCase`), the label begins with white space exactly if the key begins with
a white space character or with a letter of `A-Z`. -/
theorem displayKey_starts_with_whiteSpace_iff (H : Host)
    (hup : ∀ c, ∃ d ds, H.toUpperCase [c] = d :: ds ∧ isWhiteSpace d = isWhiteSpace c)
    (key : JSString) :
    (∃ d ∈ (displayKey H key).head?, isWhiteSpace d = true)
      ↔ (∃ c ∈ key.head?, isWhiteSpace c = true ∨ isUpperAZ c = true) := by
  cases key with
  | nil => simp [displayKey, spaceBeforeCapitals, upperFirst]
  | cons c cs =>
    obtain ⟨d, ds, hd, hws⟩ := hup c
    obtain ⟨d', ds', hd', hws'⟩ := hup 32
    have h32 : isWhiteSpace d' = true := by rw [hws']; decide
    by_cases hu : isUpperAZ c = true
    · have : isLineTerminator 32 = false := by decide
      simp [displayKey, spaceBeforeCapitals, upperFirst, hu, this, hd', h32]
    · by_cases hl : isLineTerminator c = true
      · have := isLineTerminator_whiteSpace c hl
        simp [displayKey, spaceBeforeCapitals, upperFirst, hu, hl, this]
      · simp [displayKey, spaceBeforeCapitals, upperFirst, hu, hl, hd, hws]

/-- Witness for C3: the key `createDate` begins with neither white space nor a
capital, and its label `Create Date` does not begin with white space. -/
theorem displayKey_starts_with_whiteSpace_iff_witness :
    ((∃ d ∈ (displayKey asciiHost (lit "createDate")).head?, isWhiteSpace d = true)
      ↔ (∃ c ∈ (lit "createDate").head?, isWhiteSpace c = true ∨ isUpperAZ c = true))
    ∧ ¬ (∃ c ∈ (lit "createDate").head?, isWhiteSpace c = true ∨ isUpperAZ c = true) :=
  ⟨displayKey_starts_with_whiteSpace_iff asciiHost asciiHost_toUpperCase_single (lit "createDate"),
    by decide⟩

theorem spaceBeforeRuns_eq_spaceBeforeCapitals (key : JSString) :
    ∀ (prev start : Bool),
      (∀ c ∈ key.head?, isUpperAZ c = true → (prev || start) = false) →
      List.Chain' (fun a b => ¬ (isUpperAZ a = true ∧ isUpperAZ b = true)) key →
      spaceBeforeRuns key prev start = spaceBeforeCapitals key := by
  induction key with
  | nil => intros; rfl
  | cons c cs ih =>
    intro prev start hhead hchain
    have hrest := (List.chain'_cons'.1 hchain).2
    have hnext := (List.chain'_cons'.1 hchain).1
    by_cases hu : isUpperAZ c = true
    · have hps : (prev || start) = false := hhead c (by simp) hu
      rw [spaceBeforeRuns, spaceBeforeCapitals, if_pos hu, if_pos hu, if_neg (by simp [hps])]
      rw [ih true false (fun d hd hdu => absurd ⟨hu, hdu⟩ (hnext d hd)) hrest]
    · rw [spaceBeforeRuns, spaceBeforeCapitals, if_neg hu, if_neg hu]
      rw [ih false false (fun _ _ _ => rfl) hrest]

/-- C4 as stated fails: for the key `ISO` the code gives ` I S O`, and for
`gpsDATE` it gives `Gps D A T E`, where the formatter of the claim (a space
before each run of capitals not at position 0) gives `ISO` and `Gps DATE`. -/
theorem displayKey_differs_from_run_formatter :
    displayKey asciiHost (lit "ISO") = lit " I S O"
    ∧ formatSpec asciiHost (lit "ISO") = lit "ISO"
    ∧ displayKey asciiHost (lit "gpsDATE") = lit "Gps D A T E"
    ∧ formatSpec asciiHost (lit "gpsDATE") = lit "Gps DATE"
    ∧ displayKey asciiHost (lit "ISO") ≠ formatSpec asciiHost (lit "ISO") := by
  refine ⟨by decide, by decide, by decide, by decide, by decide⟩

/-- C4, amended: the label is the key with one space inserted before every letter
of `A-Z` (also at position 0 and inside a run of capitals), with the first
code unit of the result then put in upper case unless it is a line terminator;
it is the label of the run formatter of the specification for every key with no
capital at position 0 and no two adjacent capitals; `createDate` gives
`Create Date` and `gpsDate` gives `Gps Date`. -/
theorem displayKey_spaces_every_capital :
    (∀ (H : Host) (key : JSString),
      displayKey H key
        = upperFirst H (key.flatMap (fun c => if isUpperAZ c then [32, c] else [c])))
    ∧ (∀ (H : Host) (key : JSString),
      (∀ c ∈ key.head?, isUpperAZ c = false) →
      List.Chain' (fun a b => ¬ (isUpperAZ a = true ∧ isUpperAZ b = true)) key →
      displayKey H key = formatSpec H key)
    ∧ displayKey asciiHost (lit "createDate") = lit "Create Date"
    ∧ displayKey asciiHost (lit "gpsDate") = lit "Gps Date" := by
  refine ⟨fun H key => ?_, fun H key h0 hc => ?_, by decide, by decide⟩
  · rw [displayKey, spaceBeforeCapitals_eq_flatMap]
  · rw [displayKey, formatSpec, spaceBeforeRuns_eq_spaceBeforeCapitals key false true
      (fun c hc hu => by rw [h0 c hc] at hu; cases hu) hc]

/-- Witness for C4: the key `createDate` has no capital at position 0 and no two
adjacent capitals, and its label is that of the run formatter. -/
theorem displayKey_spaces_every_capital_witness :
    displayKey asciiHost (lit "createDate") = formatSpec asciiHost (lit "createDate") :=
  displayKey_spaces_every_capital.2.1 asciiHost (lit "createDate") (by decide)
    (by simp [lit, isUpperAZ])

theorem forEachTool_append (H : Host) (a b : List (JSString × JSValue)) (html : JSString) :
    forEachTool H (a ++ b) html = (forEachTool H a html).bind (forEachTool H b) := by
  induction a generalizing html with
  | nil => simp [forEachTool]
  | cons t rest ih =>
    obtain ⟨toolName, toolData⟩ := t
    simp only [List.cons_append, forEachTool]
    split
    · split
      · split
        · rfl
        · exact ih _
      · split
        · exact ih _
        · exact ih _
    · exact ih _

theorem nodeSectionHtml_ne_nil (heading body : JSString) :
    nodeSectionHtml heading body ≠ [] := by
  have h : ∃ tl, lit "<div class=\"metadata-tool-section\">\n                            <h3>"
      = 60 :: tl := ⟨_, rfl⟩
  obtain ⟨tl, htl⟩ := h
  simp [nodeSectionHtml, htl]

theorem toolSections_node (H : Host) (name : JSString) (es : List (JSString × JSValue))
    (herr : truthy (getError (.obj es)) = false) :
    toolSections H [(name, .obj es)]
      = some (if es.isEmpty then [] else [.node (H.toUpperCase name) (metadataRows H es name)]) := by
  have h1 : (truthy (.obj es) && typeofObject (.obj es)) = true := rfl
  rw [toolSections, sectionsLoop, if_pos h1, if_neg (by simp [herr])]
  cases es with
  | nil => simp [objectEntries, sectionsLoop]
  | cons e rest => simp [objectEntries, sectionsLoop]

theorem toolSections_error (H : Host) (name msg : JSString) (es : List (JSString × JSValue))
    (hmsg : getError (.obj es) = .str msg) (hne : msg ≠ []) :
    toolSections H [(name, .obj es)] = some [.error (H.toUpperCase name) msg] := by
  have h1 : (truthy (.obj es) && typeofObject (.obj es)) = true := rfl
  have ht : truthy (.str msg) = true := by
    cases msg with
    | nil => exact absurd rfl hne
    | cons c cs => rfl
  rw [toolSections, sectionsLoop, if_pos h1, hmsg, if_pos ht]
  simp [jsToString, sectionsLoop]

/-- C5 fails on arrays: in `{"exif": {"gpsTags": ["a"], "gpsDate": "x"}}` the row
of the array `gpsTags` has the key itself as label, where the formatter gives
`Gps Tags`; the row of the scalar `gpsDate` has the formatted label `Gps Date`. -/
theorem array_row_label_is_the_raw_key :
    toolSections asciiHost
        [(lit "exif", .obj [(lit "gpsTags", .arr [.str (lit "a")]),
          (lit "gpsDate", .str (lit "x"))])]
      = some [.node (lit "EXIF")
          [⟨lit "gpsTags", lit "[\n  \"a\"\n]"⟩, ⟨lit "Gps Date", lit "x"⟩]]
    ∧ displayKey asciiHost (lit "gpsTags") = lit "Gps Tags"
    ∧ displayKey asciiHost (lit "gpsDate") = lit "Gps Date" := by
  refine ⟨by decide, by decide, by decide⟩

/-- C6 as stated fails: the tool `exif` of `{"exif": {"a": null}}` is no error and
has zero rows, yet the output holds its section with the heading `EXIF`, and is
not the output of the document without the tool. -/
theorem node_without_rows_keeps_its_section :
    toolSections asciiHost [(lit "exif", .obj [(lit "a", .null)])]
      = some [.node (lit "EXIF") []]
    ∧ displayAllMetadata asciiHost [(lit "exif", .obj [(lit "a", .null)])]
      = some (nodeSectionHtml (lit "EXIF") [])
    ∧ displayAllMetadata asciiHost [(lit "exif", .obj [(lit "a", .null)])]
      ≠ displayAllMetadata asciiHost [] := by
  refine ⟨by decide, by decide, by decide⟩

/-- C6, amended: a tool whose result is a node with no key at all contributes
nothing to the output of `displayAllMetadata`; a tool whose result is a node with
at least one key and no truthy `error` member contributes its section with the
tool-name heading, whatever the number of its rows. -/
theorem node_section_omitted_iff_no_keys :
    (∀ (H : Host) (pre post : List (JSString × JSValue)) (name : JSString),
      displayAllMetadata H (pre ++ (name, .obj []) :: post) = displayAllMetadata H (pre ++ post))
    ∧ (∀ (H : Host) (name : JSString) (es : List (JSString × JSValue)),
      es ≠ [] → truthy (getError (.obj es)) = false →
      displayAllMetadata H [(name, .obj es)]
        = some (nodeSectionHtml (H.toUpperCase name) (displayMetadataObject H es name))) := by
  constructor
  · intro H pre post name
    unfold displayAllMetadata
    rw [forEachTool_append, forEachTool_append]
    have h : ∀ html, forEachTool H ((name, .obj []) :: post) html = forEachTool H post html := by
      intro html
      simp [forEachTool, truthy, typeofObject, getError, objectEntries]
    simp only [h]
  · intro H name es hne herr
    have h1 : (truthy (.obj es) && typeofObject (.obj es)) = true := rfl
    have h2 : 0 < (objectEntries (.obj es)).length := by
      cases es with
      | nil => exact absurd rfl hne
      | cons e rest => simp [objectEntries]
    rw [displayAllMetadata, forEachTool, if_pos h1, if_neg (by simp [herr]), if_pos h2]
    simp [forEachTool, objectEntries, nodeSectionHtml_ne_nil]

/-- Witness for C6: the node `{"a": null}` has a key and no `error` member, and its
section is in the output. -/
theorem node_section_omitted_iff_no_keys_witness :
    displayAllMetadata asciiHost [(lit "exif", .obj [(lit "a", .null)])]
      = some (nodeSectionHtml (asciiHost.toUpperCase (lit "exif"))
          (displayMetadataObject asciiHost [(lit "a", .null)] (lit "exif"))) :=
  node_section_omitted_iff_no_keys.2 asciiHost (lit "exif") [(lit "a", .null)]
    (by simp) (by decide)

/-- C7: for a tool whose result is a node with no truthy `error` member, the rows
are, one for one and in order, the leaves of the depth-first walk of the node in
key order (a leaf is a value that is neither `null`, `undefined` nor a nested
node; an array is one leaf); the node has a section exactly if it has a key; and
the sections of a document are those of its tools in document order. -/
theorem rows_are_the_leaves_in_walk_order (H : Host) (name : JSString)
    (es : List (JSString × JSValue)) (herr : truthy (getError (.obj es)) = false) :
    toolSections H [(name, .obj es)]
      = some (if es.isEmpty then []
          else [.node (H.toUpperCase name) ((leaves es).map (leafRow H))])
    ∧ (∀ pfx, metadataRows H es pfx = (leaves es).map (leafRow H))
    ∧ (∀ l ∈ leaves es, l.2 ≠ .null ∧ l.2 ≠ .undefined ∧ ∀ o, l.2 ≠ .obj o)
    ∧ (∀ a b : List (JSString × JSValue),
      toolSections H (a ++ b)
        = (toolSections H a).bind (fun x => (toolSections H b).map (fun y => x ++ y))) := by
  refine ⟨?_, fun pfx => rowsLoop_eq_leaves H es pfx, leaves_are_leaf_values es,
    toolSections_append H⟩
  rw [toolSections_node H name es herr, metadataRows, rowsLoop_eq_leaves]

/-- Witness for C7: the document `{"exif": {"Make": "Canon", "gpsInfo": {"lat": 1.23}}}`
of the specification; the walk meets `Make` and then `lat`. -/
theorem rows_are_the_leaves_in_walk_order_witness :
    toolSections asciiHost
        [(lit "exif", .obj [(lit "Make", .str (lit "Canon")),
          (lit "gpsInfo", .obj [(lit "lat", .num (lit "1.23"))])])]
      = some [.node (lit "EXIF") [⟨lit " Make", lit "Canon"⟩, ⟨lit "Lat", lit "1.23"⟩]] :=
  (rows_are_the_leaves_in_walk_order asciiHost (lit "exif")
    [(lit "Make", .str (lit "Canon")), (lit "gpsInfo", .obj [(lit "lat", .num (lit "1.23"))])]
    (by decide)).1.trans (by decide)

/-- C8 as stated fails: in `{"exif": {"error": ""}}` the result carries the error
message `""`, and the tool gives an ordinary row with the label `Error`, not an
error row. -/
theorem empty_error_message_gives_no_error_row :
    toolSections asciiHost [(lit "exif", .obj [(lit "error", .str (lit ""))])]
      = some [.node (lit "EXIF") [⟨lit "Error", lit ""⟩]]
    ∧ renderedItems [.node (lit "EXIF") [⟨lit "Error", lit ""⟩]]
      = [⟨some (lit "Error"), lit "", false⟩] := by
  refine ⟨by decide, by decide⟩

/-- C8, amended: a tool whose result is an object with a non-empty string as
`error` member gives exactly one section, with one item, marked as an error, whose
value is that message; the sections of the tools before and after it are those of
the document without it. -/
theorem error_result_gives_one_error_row (H : Host) (pre post : List (JSString × JSValue))
    (name msg : JSString) (es : List (JSString × JSValue)) (a b : List ToolSection)
    (hmsg : getError (.obj es) = .str msg) (hne : msg ≠ [])
    (hpre : toolSections H pre = some a) (hpost : toolSections H post = some b) :
    toolSections H (pre ++ (name, .obj es) :: post)
      = some (a ++ .error (H.toUpperCase name) msg :: b)
    ∧ toolSections H (pre ++ post) = some (a ++ b)
    ∧ (ToolSection.error (H.toUpperCase name) msg).items = [⟨none, msg, true⟩] := by
  refine ⟨?_, ?_, rfl⟩
  · rw [toolSections_append, hpre,
      show (name, JSValue.obj es) :: post = [(name, JSValue.obj es)] ++ post from rfl,
      toolSections_append, toolSections_error H name msg es hmsg hne, hpost]
    rfl
  · rw [toolSections_append, hpre, hpost]
    rfl

/-- Witness for C8: `{"exif": {"error": "no data"}}` gives one error row with the
value `no data`, and the section of a tool after it is unchanged. -/
theorem error_result_gives_one_error_row_witness :
    toolSections asciiHost
        ([] ++ (lit "exif", .obj [(lit "error", .str (lit "no data"))])
          :: [(lit "pdf", .obj [(lit "pages", .num (lit "3"))])])
      = some ([] ++ .error (asciiHost.toUpperCase (lit "exif")) (lit "no data")
          :: [.node (lit "PDF") [⟨lit "Pages", lit "3"⟩]])
    ∧ toolSections asciiHost ([] ++ [(lit "pdf", .obj [(lit "pages", .num (lit "3"))])])
      = some ([] ++ [.node (lit "PDF") [⟨lit "Pages", lit "3"⟩]])
    ∧ (ToolSection.error (asciiHost.toUpperCase (lit "exif")) (lit "no data")).items
      = [⟨none, lit "no data", true⟩] :=
  error_result_gives_one_error_row asciiHost [] [(lit "pdf", .obj [(lit "pages", .num (lit "3"))])]
    (lit "exif") (lit "no data") [(lit "error", .str (lit "no data"))] []
    [.node (lit "PDF") [⟨lit "Pages", lit "3"⟩]] rfl (by decide) (by decide) (by decide)

/-- C9 fails on error rows: for `{"exif": {"error": "no data"}}` the rendered list
has one item, the error row, which has no key cell, and `filterMetadata` with the
empty query throws a `TypeError` on it instead of showing it. -/
theorem filterMetadata_throws_on_error_row :
    toolSections asciiHost [(lit "exif", .obj [(lit "error", .str (lit "no data"))])]
      = some [.error (lit "EXIF") (lit "no data")]
    ∧ renderedItems [.error (lit "EXIF") (lit "no data")] = [⟨none, lit "no data", true⟩]
    ∧ filterMetadata asciiHost (lit "") [⟨none, lit "no data", true⟩] = none := by
  refine ⟨by decide, by decide, by decide⟩

theorem escapeCodeUnit_cases (c : Nat) :
    (c ≠ 38 ∧ c ≠ 60 ∧ c ≠ 62 ∧ escapeCodeUnit c = [c])
    ∨ (∃ name, escapeCodeUnit c = 38 :: name ∧ 38 ∉ name ∧ 60 ∉ name ∧ 62 ∉ name
        ∧ (name = lit "amp;" ∨ name = lit "nbsp;" ∨ name = lit "lt;" ∨ name = lit "gt;")) := by
  unfold escapeCodeUnit
  by_cases h1 : c = 38
  · exact Or.inr ⟨lit "amp;", by rw [if_pos h1]; rfl, by decide, by decide, by decide,
      Or.inl rfl⟩
  · by_cases h2 : c = 160
    · exact Or.inr ⟨lit "nbsp;", by rw [if_neg h1, if_pos h2]; rfl, by decide, by decide,
        by decide, Or.inr (Or.inl rfl)⟩
    · by_cases h3 : c = 60
      · exact Or.inr ⟨lit "lt;", by rw [if_neg h1, if_neg h2, if_pos h3]; rfl, by decide,
          by decide, by decide, Or.inr (Or.inr (Or.inl rfl))⟩
      · by_cases h4 : c = 62
        · exact Or.inr ⟨lit "gt;", by rw [if_neg h1, if_neg h2, if_neg h3, if_pos h4]; rfl,
            by decide, by decide, by decide, Or.inr (Or.inr (Or.inr rfl))⟩
        · exact Or.inl ⟨h1, h3, h4, by rw [if_neg h1, if_neg h2, if_neg h3, if_neg h4]⟩

theorem escapeHtml_no_angle (t : JSString) : 60 ∉ escapeHtml t ∧ 62 ∉ escapeHtml t := by
  induction t with
  | nil => simp [escapeHtml]
  | cons c cs ih =>
    rw [escapeHtml]
    rcases escapeCodeUnit_cases c with ⟨_, h60, h62, he⟩ | ⟨name, he, _, h60, h62, _⟩
    · rw [he]
      simp only [List.singleton_append, List.mem_cons, not_or]
      exact ⟨⟨fun h => h60 h.symm, ih.1⟩, ⟨fun h => h62 h.symm, ih.2⟩⟩
    · rw [he]
      simp only [List.cons_append, List.mem_cons, List.mem_append, not_or]
      exact ⟨⟨by decide, h60, ih.1⟩, ⟨by decide, h62, ih.2⟩⟩

theorem split_after_name (name rest : JSString) (hn : 38 ∉ name) :
    ∀ (pre post : JSString), name ++ rest = pre ++ 38 :: post → ∃ pre2, rest = pre2 ++ 38 :: post := by
  induction name with
  | nil => intro pre post h; exact ⟨pre, h⟩
  | cons x xs ih =>
    intro pre post h
    cases pre with
    | nil =>
      simp only [List.cons_append, List.nil_append, List.cons.injEq] at h
      exact absurd h.1 (fun hx => hn (by simp [hx]))
    | cons p ps =>
      simp only [List.cons_append, List.cons.injEq] at h
      exact ih (fun hx => hn (List.mem_cons_of_mem _ hx)) ps post h.2

theorem escapeHtml_amp_begins_reference (t : JSString) :
    ∀ (pre post : JSString), escapeHtml t = pre ++ 38 :: post → beginsReference post := by
  induction t with
  | nil =>
    intro pre post h
    simp [escapeHtml] at h
  | cons c cs ih =>
    intro pre post h
    rw [escapeHtml] at h
    rcases escapeCodeUnit_cases c with ⟨h38, _, _, he⟩ | ⟨name, he, hn, _, _, hname⟩
    · rw [he] at h
      obtain ⟨pre2, h2⟩ := split_after_name [c] (escapeHtml cs) (by simp [Ne.symm h38]) pre post h
      exact ih pre2 post h2
    · rw [he] at h
      cases pre with
      | nil =>
        simp only [List.cons_append, List.nil_append, List.cons.injEq, true_and] at h
        have hp : name <+: post := ⟨escapeHtml cs, h⟩
        unfold beginsReference
        rcases hname with e | e | e | e
        · exact Or.inl (e ▸ hp)
        · exact Or.inr (Or.inl (e ▸ hp))
        · exact Or.inr (Or.inr (Or.inl (e ▸ hp)))
        · exact Or.inr (Or.inr (Or.inr (e ▸ hp)))
      | cons p ps =>
        simp only [List.cons_append, List.cons.injEq] at h
        obtain ⟨pre2, h2⟩ := split_after_name name (escapeHtml cs) hn ps post h.2
        exact ih pre2 post h2

theorem escapeHtml_of_plain (t : JSString)
    (h : ∀ c ∈ t, c ≠ 38 ∧ c ≠ 160 ∧ c ≠ 60 ∧ c ≠ 62) : escapeHtml t = t := by
  induction t with
  | nil => rfl
  | cons c cs ih =>
    obtain ⟨h1, h2, h3, h4⟩ := h c (by simp)
    rw [escapeHtml, ih (fun d hd => h d (List.mem_cons_of_mem _ hd)), escapeCodeUnit,
      if_neg h1, if_neg h2, if_neg h3, if_neg h4]
    rfl

theorem count_escapeHtml (t : JSString) :
    List.count 60 (escapeHtml t) = 0 ∧ List.count 62 (escapeHtml t) = 0 :=
  ⟨List.count_eq_zero.2 (escapeHtml_no_angle t).1, List.count_eq_zero.2 (escapeHtml_no_angle t).2⟩

theorem count_itemHtml (key value : JSString) :
    List.count 60 (itemHtml key value) = 6 ∧ List.count 62 (itemHtml key value) = 6 := by
  unfold itemHtml
  simp only [List.count_append, (count_escapeHtml _).1, (count_escapeHtml _).2]
  constructor <;> rfl

theorem count_rowsHtml (rows : List Row) :
    List.count 60 (rows.flatMap (fun r => itemHtml r.key r.value)) = 6 * rows.length
    ∧ List.count 62 (rows.flatMap (fun r => itemHtml r.key r.value)) = 6 * rows.length := by
  induction rows with
  | nil => simp
  | cons r rs ih =>
    simp only [List.flatMap_cons, List.count_append, (count_itemHtml _ _).1,
      (count_itemHtml _ _).2, ih.1, ih.2, List.length_cons]
    constructor <;> ring

theorem count_sectionHtml (s : ToolSection) :
    List.count 60 s.html = s.tagCount ∧ List.count 62 s.html = s.tagCount := by
  cases s with
  | error heading message =>
    simp only [ToolSection.html, ToolSection.tagCount, errorSectionHtml, List.count_append,
      (count_escapeHtml _).1, (count_escapeHtml _).2]
    constructor <;> rfl
  | node heading rows =>
    simp only [ToolSection.html, ToolSection.tagCount, nodeSectionHtml, List.count_append,
      (count_escapeHtml _).1, (count_escapeHtml _).2, (count_rowsHtml _).1, (count_rowsHtml _).2]
    have a0 : List.count 60 (lit "<div class=\"metadata-tool-section\">\n                            <h3>") = 2 := rfl
    have b0 : List.count 62 (lit "<div class=\"metadata-tool-section\">\n                            <h3>") = 2 := rfl
    have a1 : List.count 60 (lit "</h3>\n                            ") = 1 := rfl
    have b1 : List.count 62 (lit "</h3>\n                            ") = 1 := rfl
    have a2 : List.count 60 (lit "\n                         </div>") = 1 := rfl
    have b2 : List.count 62 (lit "\n                         </div>") = 1 := rfl
    omega

theorem sectionHtml_ne_nil (s : ToolSection) : s.html ≠ [] := by
  have h : ∃ tl, lit "<div class=\"metadata-tool-section\">\n                            <h3>"
      = 60 :: tl := ⟨_, rfl⟩
  obtain ⟨tl, htl⟩ := h
  cases s with
  | error heading message => simp [ToolSection.html, errorSectionHtml, htl]
  | node heading rows => simp [ToolSection.html, nodeSectionHtml, htl]

theorem sectionsHtml_isEmpty (secs : List ToolSection) :
    (secs.flatMap ToolSection.html).isEmpty = secs.isEmpty := by
  cases secs with
  | nil => rfl
  | cons s rest =>
    have := sectionHtml_ne_nil s
    cases h : s.html with
    | nil => exact absurd h this
    | cons c cs => simp [h]

/-- The string of `displayAllMetadata` is the markup of its sections, or the
markup `noMetadataHtml` when there is no section. -/
theorem displayAllMetadata_eq_sections (H : Host) (doc : List (JSString × JSValue)) :
    displayAllMetadata H doc
      = (toolSections H doc).map
          (fun secs => if secs.isEmpty then noMetadataHtml else secs.flatMap ToolSection.html) := by
  rw [displayAllMetadata, forEachTool_eq_sections, toolSections, Option.map_map]
  congr 1
  funext secs
  simp only [Function.comp, List.nil_append, sectionsHtml_isEmpty]

theorem count_sectionsHtml (secs : List ToolSection) :
    List.count 60 (secs.flatMap ToolSection.html) = (secs.map ToolSection.tagCount).sum
    ∧ List.count 62 (secs.flatMap ToolSection.html) = (secs.map ToolSection.tagCount).sum := by
  induction secs with
  | nil => simp
  | cons s rest ih =>
    simp only [List.flatMap_cons, List.count_append, (count_sectionHtml s).1,
      (count_sectionHtml s).2, ih.1, ih.2, List.map_cons, List.sum_cons]
    exact ⟨trivial, trivial⟩

/-- C10 as stated fails: `escapeHtml` leaves the characters `"` and `'` (code
units 34 and 39) as they are, so both appear unescaped in its output. -/
theorem escapeHtml_keeps_quotes :
    escapeHtml [34, 39] = [34, 39]
    ∧ 34 ∈ escapeHtml [34, 39]
    ∧ 39 ∈ escapeHtml [34, 39]
    ∧ escapeHtml (lit "<a href=\"x\">") = lit "&lt;a href=\"x\"&gt;" := by
  refine ⟨by decide, by decide, by decide, by decide⟩

/-- C10, amended: the string of `displayAllMetadata` is the markup of its sections,
in which every heading, key and value is passed through `escapeHtml`; the output
of `escapeHtml` holds no `<` and no `>`, and every `&` in it begins one of the
references `&amp;`, `&nbsp;`, `&lt;`, `&gt;`; a text without `&`, `<`, `>` and
no-break space, such as the characters `"` and `'`, is left as it is; so the
number of `<` and of `>` in the string is the number of tags of the sections,
whatever the metadata text. -/
theorem escapeHtml_neutralizes_angle_and_amp :
    (∀ t : JSString, 60 ∉ escapeHtml t ∧ 62 ∉ escapeHtml t
      ∧ ∀ pre post : JSString, escapeHtml t = pre ++ 38 :: post → beginsReference post)
    ∧ (∀ t : JSString, (∀ c ∈ t, c ≠ 38 ∧ c ≠ 160 ∧ c ≠ 60 ∧ c ≠ 62) → escapeHtml t = t)
    ∧ (∀ (H : Host) (doc : List (JSString × JSValue)),
      displayAllMetadata H doc
        = (toolSections H doc).map
            (fun secs => if secs.isEmpty then noMetadataHtml else secs.flatMap ToolSection.html))
    ∧ (∀ (H : Host) (doc : List (JSString × JSValue)) (html : JSString),
      displayAllMetadata H doc = some html →
      ∃ secs, toolSections H doc = some secs
        ∧ List.count 60 html = (if secs.isEmpty then 4 else (secs.map ToolSection.tagCount).sum)
        ∧ List.count 62 html = (if secs.isEmpty then 4 else (secs.map ToolSection.tagCount).sum)) := by
  refine ⟨fun t => ⟨(escapeHtml_no_angle t).1, (escapeHtml_no_angle t).2,
    escapeHtml_amp_begins_reference t⟩, escapeHtml_of_plain, displayAllMetadata_eq_sections, ?_⟩
  intro H doc html h
  rw [displayAllMetadata_eq_sections] at h
  cases hs : toolSections H doc with
  | none => rw [hs] at h; cases h
  | some secs =>
    rw [hs] at h
    simp only [Option.map_some', Option.some.injEq] at h
    refine ⟨secs, rfl, ?_⟩
    subst h
    cases secs with
    | nil => exact ⟨rfl, rfl⟩
    | cons s rest =>
      simp only [List.isEmpty_cons, Bool.false_eq_true, if_false]
      exact count_sectionsHtml (s :: rest)

/-- Witness for C10: the text `"it's"` has none of `&`, `<`, `>` and no-break
space, and `escapeHtml` returns it with its quotes; in the string for
`{"exif": {"a": "<b>"}}` the tags are the ten of one section with one row. -/
theorem escapeHtml_neutralizes_angle_and_amp_witness :
    escapeHtml [34, 105, 116, 39, 115, 34] = [34, 105, 116, 39, 115, 34]
    ∧ (∃ secs, toolSections asciiHost [(lit "exif", .obj [(lit "a", .str (lit "<b>"))])]
          = some secs
        ∧ List.count 60 (nodeSectionHtml (lit "EXIF") (itemHtml (lit "A") (lit "<b>")))
          = (if secs.isEmpty then 4 else (secs.map ToolSection.tagCount).sum)
        ∧ List.count 62 (nodeSectionHtml (lit "EXIF") (itemHtml (lit "A") (lit "<b>")))
          = (if secs.isEmpty then 4 else (secs.map ToolSection.tagCount).sum)) :=
  ⟨escapeHtml_neutralizes_angle_and_amp.2.1 [34, 105, 116, 39, 115, 34] (by decide),
    escapeHtml_neutralizes_angle_and_amp.2.2.2 asciiHost
      [(lit "exif", .obj [(lit "a", .str (lit "<b>"))])]
      (nodeSectionHtml (lit "EXIF") (itemHtml (lit "A") (lit "<b>"))) (by decide)⟩

theorem includes_iff (s search : JSString) : includes s search = true ↔ search <:+: s := by
  induction s with
  | nil =>
    cases search with
    | nil => simp [includes]
    | cons c cs => simp [includes, List.isPrefixOf]
  | cons c cs ih =>
    rw [includes, Bool.or_eq_true, ih, List.isPrefixOf_iff_prefix, List.infix_cons_iff]

theorem filterLoop_of_keys (H : Host) (searchTerm : JSString) (rows : List Row)
    (shown : List Bool) :
    filterLoop H searchTerm (rows.map (fun r => ⟨some r.key, r.value, false⟩)) shown
      = some (shown ++ rows.map (fun r =>
          includes (H.toLowerCase r.key) searchTerm
            || includes (H.toLowerCase r.value) searchTerm)) := by
  induction rows generalizing shown with
  | nil => simp [filterLoop]
  | cons r rs ih =>
    simp only [List.map_cons, filterLoop]
    rw [ih]
    simp

/-- On rows that have a key cell `filterMetadata` returns, and a row is shown
exactly if the query in lower case occurs in its key or in its value in lower
case. -/
theorem filterMetadata_of_keys (H : Host) (searchValue : JSString) (rows : List Row) :
    ∃ shown, filterMetadata H searchValue (rows.map (fun r => ⟨some r.key, r.value, false⟩))
        = some shown
      ∧ shown.length = rows.length
      ∧ ∀ (i : Nat) (h : i < rows.length), ∀ b ∈ shown[i]?,
          (b = true ↔ (H.toLowerCase searchValue <:+: H.toLowerCase (rows.get ⟨i, h⟩).key
            ∨ H.toLowerCase searchValue <:+: H.toLowerCase (rows.get ⟨i, h⟩).value)) := by
  refine ⟨_, by rw [filterMetadata, filterLoop_of_keys], by simp, ?_⟩
  intro i h b hb
  simp only [List.nil_append, List.getElem?_map, List.getElem?_eq_getElem h, Option.map_some',
    Option.mem_def, Option.some.injEq] at hb
  subst hb
  simp [includes_iff]
end MetadataChecker
